import Mathlib

/-!
Verification development for the time-tracking-parser repository.

The Rust sources under src/ are shallowly embedded below.  Strings are
modelled as lists of characters (`Str`); the embedding of the character
classification functions from the Rust standard library (`char::is_numeric`,
`char::is_lowercase`, `char::is_uppercase`, whitespace trimming, the regex
class `\d`) covers the ASCII fragment, which is the character set the
parser's grammar and the repository's tests exercise.
-/

namespace TTP

/-- Strings are modelled as lists of characters. -/
abbrev Str := List Char

/-- Embedding of the regex class `\d` and of `char::is_numeric` on the ASCII
fragment: a decimal digit. -/
def isDigitChar (c : Char) : Bool :=
  '0' ≤ c && c ≤ '9'

/-- Embedding of `char::is_lowercase` on the ASCII fragment. -/
def isLowerChar (c : Char) : Bool :=
  'a' ≤ c && c ≤ 'z'

/-- Embedding of `char::is_uppercase` on the ASCII fragment. -/
def isUpperChar (c : Char) : Bool :=
  'A' ≤ c && c ≤ 'Z'

/-- Embedding of Rust whitespace (`str::trim`) on the ASCII fragment:
the ASCII characters with the White_Space property. -/
def isWhiteChar (c : Char) : Bool :=
  c = ' ' || c = '\t' || c = '\n' || c = '\r' || c.toNat = 11 || c.toNat = 12

/-- Embedding of `str::trim`: drop whitespace from both ends. -/
def trimStr (cs : Str) : Str :=
  ((cs.dropWhile isWhiteChar).reverse.dropWhile isWhiteChar).reverse

/-- Embedding of Rust `str::split(sep)` for a single-character separator:
all the fields, keeping empty ones (so `"a--b"` splits into three parts). -/
def splitOnChar (sep : Char) : Str → List Str
  | [] => [[]]
  | c :: cs =>
    if c = sep then [] :: splitOnChar sep cs
    else
      match splitOnChar sep cs with
      | p :: ps => (c :: p) :: ps
      | [] => [[c]]

/-- Split at the first occurrence of a character, when present. -/
def break1 (sep : Char) : Str → Option (Str × Str)
  | [] => none
  | c :: cs =>
    if c = sep then some ([], cs)
    else
      match break1 sep cs with
      | some (a, b) => some (c :: a, b)
      | none => none

/-- Embedding of `line.splitn(2, ' ')`: at most two fields, split at the
first space. -/
def splitn2Space (cs : Str) : List Str :=
  match break1 ' ' cs with
  | some (a, b) => [a, b]
  | none => [cs]

/-- Embedding of `str::lines`: split on a newline character, a trailing
newline does not produce a final empty line, and a trailing carriage
return is removed from each line. -/
def rustLines (cs : Str) : List Str :=
  let ps := splitOnChar '\n' cs
  let ps := if ps.getLast? = some [] then ps.dropLast else ps
  ps.map fun l =>
    match l.getLast? with
    | some '\r' => l.dropLast
    | _ => l

/-- Embedding of the crate function `strip_prefix_sane`: remove the given
leading pattern when present, otherwise return the string unchanged. -/
def strip_prefix_sane (pat : Str) (cs : Str) : Str :=
  if pat.isPrefixOf cs then cs.drop pat.length else cs

/-- Decimal rendering of a natural number (Rust `format!("{n}")`). -/
def natDec (n : Nat) : Str :=
  Nat.toDigits 10 n

/-- Embedding of `"s".parse::<u8>()` restricted to its success value: an
optional leading plus sign followed by one or more decimal digits whose
value fits in a u8. -/
def digitsVal : Str → Option Nat
  | [] => none
  | [c] => if isDigitChar c then some (c.toNat - '0'.toNat) else none
  | c :: cs =>
    if isDigitChar c then
      match digitsVal cs with
      | some v => some ((c.toNat - '0'.toNat) * 10 ^ cs.length + v)
      | none => none
    else none

def parseU8 (cs : Str) : Option Nat :=
  let body := match cs with
    | '+' :: rest => rest
    | _ => cs
  match digitsVal body with
  | some v => if v ≤ 255 then some v else none
  | none => none

/-- Embedding of `time::Time` from `src/time.rs`: an hour and a minute.
Validity (hour in the accepted 0-12 range of `Hour::from_str`, minute in
0-59) is tracked by the predicate `TimeValid` rather than by construction. -/
structure Time where
  hour : Nat
  minute : Nat
deriving DecidableEq

/-- The range invariant the fallible constructors of `Hour` and `Minute`
establish: `Hour::from_str` accepts 0..=12 and `Minute` accepts 0..=59. -/
def TimeValid (t : Time) : Prop :=
  t.hour ≤ 12 ∧ t.minute ≤ 59

instance (t : Time) : Decidable (TimeValid t) := by
  unfold TimeValid; infer_instance

/-- Embedding of `impl FromStr for Hour` (`src/time/hour.rs`): parse as u8,
then require the 0..=12 range. -/
def Hour.from_str (s : Str) : Except Str Nat :=
  match parseU8 s with
  | none => .error ("Invalid hour format: ".toList ++ s)
  | some h =>
    if h ≤ 12 then .ok h
    else .error ("Hour must be between 0 and 12, got ".toList ++ natDec h)

/-- Embedding of `impl FromStr for Minute` (`src/time/minute.rs`): parse as
u8 (the error text reuses the hour wording, as in the source), then the
nutype predicate 0..=59.  The predicate-violation text models the external
nutype crate's generated error message. -/
def Minute.from_str (s : Str) : Except Str Nat :=
  match parseU8 s with
  | none => .error ("Invalid hour format: ".toList ++ s)
  | some m =>
    if m ≤ 59 then .ok m
    else .error "Minute failed the predicate test".toList

/-- Embedding of `Time::from_strings`; the `?` operator is rendered as an
explicit match. -/
def Time.from_strings (h m : Str) : Except Str Time :=
  match Hour.from_str h with
  | .error e => .error e
  | .ok hour =>
    match Minute.from_str m with
    | .error e => .error e
    | .ok minute => .ok { hour := hour, minute := minute }

/-- Embedding of `Time::to_minutes`: minutes since the reference, hour 12
mapping to 0. -/
def Time.to_minutes (t : Time) : Nat :=
  (if t.hour = 12 then 0 else t.hour) * 60 + t.minute

/-- Embedding of `Time::duration_minutes` (i32 arithmetic, no overflow for
the u16 inputs). -/
def Time.duration_minutes (start finish : Time) : Int :=
  let start_mins : Int := start.to_minutes
  let end_mins : Int := finish.to_minutes
  if end_mins ≥ start_mins then end_mins - start_mins
  else 12 * 60 + end_mins - start_mins

/-- Embedding of `Time::chronological_duration_minutes`. -/
def Time.chronological_duration_minutes (start finish : Time) : Int :=
  let start_mins : Int := start.to_minutes
  let end_mins : Int := finish.to_minutes
  if end_mins > start_mins then end_mins - start_mins
  else if end_mins = start_mins then 0
  else 12 * 60 - start_mins + end_mins

/-- Embedding of the Rust cast `i as u32`: two's-complement
reinterpretation, i.e. reduction modulo 2^32. -/
def u32cast (i : Int) : Nat :=
  (i % (2 ^ 32 : Nat)).toNat

/-- Embedding of `TimeEntry` (`src/time_entry.rs`).  The Rust field `end`
is a Lean keyword and is rendered `endTime`. -/
structure TimeEntry where
  start : Time
  endTime : Time
  project : Str
  notes : List Str
deriving DecidableEq

/-- Embedding of `TimeEntry::duration_minutes` with its `as u32` cast. -/
def TimeEntry.duration_minutes (e : TimeEntry) : Nat :=
  u32cast (Time.duration_minutes e.start e.endTime)

/-- Embedding of `ProjectSummary` (`src/project_summary.rs`). -/
structure ProjectSummary where
  name : Str
  total_minutes : Nat
  notes : List Str
deriving DecidableEq

/-- Embedding of `TimeTrackingData` (`src/time_tracking_data.rs`). -/
structure TimeTrackingData where
  total_minutes : Nat
  dead_time_minutes : Nat
  projects : List ProjectSummary
  warnings : List Str
  start_time : Option Time
  end_time : Option Time
deriving DecidableEq

/-- Embedding of `parse_time` (`src/parser.rs`): split on a colon, one part
means the minute defaults to "00". -/
def parse_time (time_str : Str) : Except Str Time :=
  match splitOnChar ':' time_str with
  | [h] => Time.from_strings h "00".toList
  | [h, m] => Time.from_strings h m
  | _ => .error ("Invalid time format: ".toList ++ time_str)

/-- Embedding of `parse_time_range` (`src/parser.rs`): split on a dash into
exactly two parts, trim each, parse each side. -/
def parse_time_range (range_str : Str) : Except Str (Time × Time) :=
  match splitOnChar '-' range_str with
  | [a, b] =>
    (match parse_time (trimStr a) with
     | .error e => .error e
     | .ok s =>
       match parse_time (trimStr b) with
       | .error e => .error e
       | .ok e => .ok (s, e))
  | _ => .error ("Invalid time range format: ".toList ++ range_str)

/-- Deterministic embedding of the start-detection regex
`^\d{1,2}(?::\d{2})?-\d{1,2}(?::\d{2})?`: consume one or two digits.
Taking two digits when two are available loses no match, because the
following regex element can never consume a digit. -/
def matchD12 : Str → Option Str
  | [] => none
  | [c] => if isDigitChar c then some [] else none
  | c1 :: c2 :: rest =>
    if isDigitChar c1 then
      if isDigitChar c2 then some rest else some (c2 :: rest)
    else none

/-- Consume the optional `(?::\d{2})?` group: when a colon is present the
two digits are mandatory, because the element after the group is a dash. -/
def matchOptColonDD : Str → Option Str
  | ':' :: c1 :: c2 :: rest =>
    if isDigitChar c1 && isDigitChar c2 then some rest else none
  | ':' :: _ => none
  | cs => some cs

/-- Whether the start-detection regex matches at the beginning of the line;
the trailing optional group always matches (possibly empty), so the match
succeeds as soon as the second digit group does. -/
def timeRegexMatch (cs : Str) : Bool :=
  match matchD12 cs with
  | none => false
  | some r1 =>
    match matchOptColonDD r1 with
    | none => false
    | some r2 =>
      match r2 with
      | '-' :: r3 => (matchD12 r3).isSome
      | _ => false

/-- Embedding of `is_time_tracking_line` (`src/parser.rs`). -/
def is_time_tracking_line (line : Str) (pfx : Option Str) : Bool :=
  match pfx with
  | some p => p.isPrefixOf line
  | none => timeRegexMatch line

/-- Embedding of `should_continue_parsing` (`src/parser.rs`). -/
def should_continue_parsing (line : Str) (sfx : Option Str) : Bool :=
  match sfx with
  | some s => !(s.isPrefixOf line)
  | none =>
    match line with
    | [] => false
    | c :: _ =>
      isDigitChar c || c = '-' || c = ' ' || c = '*' || isLowerChar c || isUpperChar c

/-- Whether `line.starts_with(char::is_numeric)` holds. -/
def startsWithDigit (line : Str) : Bool :=
  match line with
  | [] => false
  | c :: _ => isDigitChar c

/-- The mutable state of the loop inside `parse_time_tracking_data`:
accumulated warnings, finalized entries, the currently open entry and the
`parsing_started` flag. -/
structure ParseState where
  warnings : List Str
  entries : List TimeEntry
  current : Option TimeEntry
  started : Bool
deriving DecidableEq

def initState : ParseState :=
  { warnings := [], entries := [], current := none, started := false }

/-- Finalize the currently open entry (`current_entry.take()` followed by
`entries.push`). -/
def pushCurrent (st : ParseState) : ParseState :=
  { st with entries := st.entries ++ st.current.toList, current := none }

/-- The body of the loop for one trimmed, non-blank line once parsing has
started and the continuation check has passed (`src/parser.rs` lines
103-153). -/
def handleLine (st : ParseState) (line : Str) : ParseState :=
  if ¬ startsWithDigit line ∧ line ≠ [] then
    match st.current with
    | some e =>
      { st with current := some { e with notes :=
          e.notes ++ [trimStr (strip_prefix_sane "*".toList (strip_prefix_sane "-".toList line))] } }
    | none => st
  else
    let st := pushCurrent st
    match splitn2Space line with
    | [p0] =>
      let st := { st with warnings :=
        st.warnings ++ ["Line missing project name: ".toList ++ line] }
      match parse_time_range p0 with
      | .ok (s, e) =>
        { st with current := some { start := s, endTime := e, project := [], notes := [] } }
      | .error _ => st
    | p0 :: p1 :: _ =>
      match parse_time_range p0 with
      | .ok (s, e) =>
        { st with current := some { start := s, endTime := e, project := trimStr p1, notes := [] } }
      | .error msg =>
        { st with warnings :=
          st.warnings ++ ["Error parsing time range '".toList ++ p0 ++ "': ".toList ++ msg] }
    | [] => st

/-- The outcome of one loop iteration: either fall through to the next
line or break out of the loop. -/
inductive StepResult where
  | next (st : ParseState)
  | halt (st : ParseState)

/-- After parsing has started: break when the continuation check fails,
otherwise process the line. -/
def afterStart (sfx : Option Str) (st : ParseState) (line : Str) : StepResult :=
  if should_continue_parsing line sfx then .next (handleLine st line)
  else .halt st

/-- One iteration of the loop of `parse_time_tracking_data` on a raw input
line: trim, skip blank lines, start detection (a matching prefix line is
itself skipped), then the continuation check and line handling. -/
def processLine (pfx sfx : Option Str) (st : ParseState) (raw : Str) : StepResult :=
  let line := trimStr raw
  if line = [] then .next st
  else
    if st.started then afterStart sfx st line
    else
      if is_time_tracking_line line pfx then
        let st := { st with started := true }
        if pfx.isSome then .next st else afterStart sfx st line
      else .next st

/-- The whole loop: fold `processLine` over the lines, stopping early on
`halt` (the `break`). -/
def processLines (pfx sfx : Option Str) : List Str → ParseState → ParseState
  | [], st => st
  | l :: rest, st =>
    match processLine pfx sfx st l with
    | .next st' => processLines pfx sfx rest st'
    | .halt st' => st'

/-- The ordered entry list the parser accumulates, the still-open entry
finalized at end of input. -/
def parsedEntries (input : Str) (pfx sfx : Option Str) : List TimeEntry :=
  let st := processLines pfx sfx (rustLines input) initState
  st.entries ++ st.current.toList

/-- Embedding of `format_time` (`src/format.rs`): minute zero renders as
`H:00`, otherwise the minute is zero-padded to two digits. -/
def format_time (t : Time) : Str :=
  if t.minute = 0 then natDec t.hour ++ ":00".toList
  else natDec t.hour ++ ":".toList ++ (if t.minute < 10 then '0' :: natDec t.minute else natDec t.minute)

/-- The long-entry validator pass (`src/parser.rs` lines 161-171): one
warning per entry whose own duration exceeds six hours. -/
def durationWarnings (entries : List TimeEntry) : List Str :=
  entries.filterMap fun e =>
    if e.duration_minutes > 6 * 60 then
      some ("Time period ".toList ++ format_time e.start ++ "-".toList ++ format_time e.endTime
        ++ " appears to be longer than 6 hours. Input may not be in correct order.".toList)
    else none

/-- The long-gap validator pass (`src/parser.rs` lines 173-187), written as
the source's fold over a `last_end` option. -/
def gapWarningsAux : Option Time → List TimeEntry → List Str
  | _, [] => []
  | lastEnd, e :: rest =>
    (match lastEnd with
     | some prev =>
       if Time.chronological_duration_minutes prev e.start > 6 * 60 then
         ["Gap from ".toList ++ format_time prev ++ " to ".toList ++ format_time e.start
           ++ " appears to be longer than 6 hours. Input may not be in correct order.".toList]
       else []
     | none => []) ++ gapWarningsAux (some e.endTime) rest

/-- Total working time (`src/parser.rs` lines 195-199): the loop
`total_minutes += entry.duration_minutes()` over every entry, with u32
wrapping on each addition. -/
def sumDurations (acc : Nat) : List TimeEntry → Nat
  | [] => acc
  | e :: rest => sumDurations ((acc + e.duration_minutes) % 2 ^ 32) rest

/-- Dead-time accumulation (`src/parser.rs` lines 201-212): the source's
fold over a `last_end` option adding every strictly positive gap, with the
`as u32` cast on the gap and u32 wrapping on each `+=`. -/
def deadTimeAux : Option Time → Nat → List TimeEntry → Nat
  | _, acc, [] => acc
  | lastEnd, acc, e :: rest =>
    let acc :=
      match lastEnd with
      | some prev =>
        let gap := Time.chronological_duration_minutes prev e.start
        if gap > 0 then (acc + u32cast gap) % 2 ^ 32 else acc
      | none => acc
    deadTimeAux (some e.endTime) acc rest

/-- Find-or-create update of the aggregation map for one entry
(`HashMap::entry` + `add_time` + `add_notes`); `add_time` is a wrapping
u32 `+=`.  The hash map is modelled
as an association list in first-insertion order; since keys are distinct
the final name sort below makes the output independent of the map's
iteration order, so this model is faithful. -/
def addEntry : List ProjectSummary → TimeEntry → List ProjectSummary
  | [], e => [{ name := e.project, total_minutes := e.duration_minutes % 2 ^ 32,
                notes := e.notes }]
  | s :: rest, e =>
    if s.name = e.project then
      { s with total_minutes := (s.total_minutes + e.duration_minutes) % 2 ^ 32,
               notes := s.notes ++ e.notes } :: rest
    else s :: addEntry rest e

/-- The aggregation pass (`src/parser.rs` lines 217-231): entries with an
empty project label are skipped. -/
def aggregate : List TimeEntry → List ProjectSummary → List ProjectSummary
  | [], acc => acc
  | e :: rest, acc =>
    if e.project = [] then aggregate rest acc
    else aggregate rest (addEntry acc e)

/-- Lexicographic comparison of strings by character codepoint, the order
of Rust's `String::cmp` (UTF-8 byte order coincides with codepoint
order). -/
def strLt : Str → Str → Bool
  | _, [] => false
  | [], _ :: _ => true
  | a :: as, b :: bs =>
    if a < b then true
    else if b < a then false
    else strLt as bs

/-- Non-strict counterpart used by the sort. -/
def strLe (a b : Str) : Bool :=
  !(strLt b a)

/-- Insert into a name-sorted list, before the first element it is not
greater than (a stable ascending insertion). -/
def insertPS (x : ProjectSummary) : List ProjectSummary → List ProjectSummary
  | [] => [x]
  | y :: ys => if strLe x.name y.name then x :: y :: ys else y :: insertPS x ys

/-- Embedding of `data.projects.sort_by(|a, b| a.name.cmp(&b.name))`: a
stable ascending sort by name; with distinct names every stable sort
produces this list, whatever order the hash map yielded. -/
def sortProjects : List ProjectSummary → List ProjectSummary
  | [] => []
  | x :: xs => insertPS x (sortProjects xs)

/-- Embedding of `parse_time_tracking_data` (`src/parser.rs`): run the
line loop, finalize the last entry, then the validator passes, the
start/end times, the totals and the sorted per-project aggregation.
Warnings appear in emission order: parse warnings, then long-entry
warnings, then long-gap warnings. -/
def parse_time_tracking_data (input : Str) (pfx sfx : Option Str) : TimeTrackingData :=
  let entries := parsedEntries input pfx sfx
  { total_minutes := sumDurations 0 entries
    dead_time_minutes := deadTimeAux none 0 entries
    projects := sortProjects (aggregate entries [])
    warnings := (processLines pfx sfx (rustLines input) initState).warnings
      ++ durationWarnings entries ++ gapWarningsAux none entries
    start_time := entries.head?.map TimeEntry.start
    end_time := entries.getLast?.map TimeEntry.endTime }

/-- The claim's reading of dead time: over all consecutive pairs of parsed
entries in input order, sum the chronological gap from the first entry's
end to the second entry's start, restricted to strictly positive values. -/
def specDeadTime : List TimeEntry → Int
  | e1 :: e2 :: rest =>
    (let g := Time.chronological_duration_minutes e1.endTime e2.start
     if g > 0 then g else 0) + specDeadTime (e2 :: rest)
  | _ => 0

/-- The same sum, started from a given previous end time. -/
def specDeadFrom (prev : Time) : List TimeEntry → Int
  | [] => 0
  | e :: rest =>
    (let g := Time.chronological_duration_minutes prev e.start
     if g > 0 then g else 0) + specDeadFrom e.endTime rest

/-- An entry whose two times satisfy the constructor invariants. -/
def EntryValid (e : TimeEntry) : Prop :=
  TimeValid e.start ∧ TimeValid e.endTime

instance (e : TimeEntry) : Decidable (EntryValid e) := by
  unfold EntryValid; infer_instance

/-- Every accumulated entry, and the open one, has valid times. -/
def StateValid (st : ParseState) : Prop :=
  (∀ e ∈ st.entries, EntryValid e) ∧ ∀ e ∈ st.current.toList, EntryValid e

/-- The names of a summary list, in order. -/
def namesOf (l : List ProjectSummary) : List Str :=
  l.map ProjectSummary.name

/-- Modelled from the spec: the field names of the structured-interchange
schema (section 6); the encoding/decoding machinery itself (serde_json) is
outside src/, so field names are modelled as atoms. -/
inductive JKey where
  | total_minutes | dead_time_minutes | projects | warnings
  | start_time | end_time | hour | minute | name | notes
deriving DecidableEq

/-- Modelled from the spec: a structured-interchange value (JSON-shaped:
null, unsigned number, string, array, object). -/
inductive Json where
  | null : Json
  | num : Nat → Json
  | str : Str → Json
  | arr : List Json → Json
  | obj : List (JKey × Json) → Json

/-- Modelled from the spec: encoding of a nullable `{hour, minute}` time. -/
def encodeTime (t : Time) : Json :=
  .obj [(.hour, .num t.hour), (.minute, .num t.minute)]

def encodeOptTime : Option Time → Json
  | none => .null
  | some t => encodeTime t

/-- Modelled from the spec: encoding of a `{name, total_minutes, notes[]}`
project summary. -/
def encodeProject (p : ProjectSummary) : Json :=
  .obj [(.name, .str p.name), (.total_minutes, .num p.total_minutes),
        (.notes, .arr (p.notes.map .str))]

/-- Modelled from the spec: `toInterchange(result)`, with the stable field
names of section 6. -/
def toInterchange (d : TimeTrackingData) : Json :=
  .obj [(.total_minutes, .num d.total_minutes),
        (.dead_time_minutes, .num d.dead_time_minutes),
        (.projects, .arr (d.projects.map encodeProject)),
        (.warnings, .arr (d.warnings.map .str)),
        (.start_time, encodeOptTime d.start_time),
        (.end_time, encodeOptTime d.end_time)]

def findField (k : JKey) : List (JKey × Json) → Option Json
  | [] => none
  | (k', v) :: rest => if k' = k then some v else findField k rest

def getField (j : Json) (k : JKey) : Option Json :=
  match j with
  | .obj fields => findField k fields
  | _ => none

def asNum : Json → Option Nat
  | .num n => some n
  | _ => none

def asStr : Json → Option Str
  | .str s => some s
  | _ => none

def decodeTime (j : Json) : Option Time := do
  let h ← getField j .hour >>= asNum
  let m ← getField j .minute >>= asNum
  pure { hour := h, minute := m }

def decodeOptTime : Json → Option (Option Time)
  | .null => some none
  | j => (decodeTime j).map some

/-- Decode each element of a list, failing when any element fails. -/
def optMapList {α : Type} (f : Json → Option α) : List Json → Option (List α)
  | [] => some []
  | j :: js =>
    match f j with
    | none => none
    | some a =>
      match optMapList f js with
      | none => none
      | some rest => some (a :: rest)

def decodeStrs : Json → Option (List Str)
  | .arr js => optMapList asStr js
  | _ => none

def decodeProject (j : Json) : Option ProjectSummary := do
  let n ← getField j .name >>= asStr
  let t ← getField j .total_minutes >>= asNum
  let ns ← getField j .notes >>= decodeStrs
  pure { name := n, total_minutes := t, notes := ns }

def decodeProjects : Json → Option (List ProjectSummary)
  | .arr js => optMapList decodeProject js
  | _ => none

/-- Modelled from the spec: `fromInterchange(bytes/string)`, field-by-field
decoding of the section 6 schema. -/
def fromInterchange (j : Json) : Option TimeTrackingData := do
  let tm ← getField j .total_minutes >>= asNum
  let dm ← getField j .dead_time_minutes >>= asNum
  let ps ← getField j .projects >>= decodeProjects
  let ws ← getField j .warnings >>= decodeStrs
  let stj ← getField j .start_time
  let st ← decodeOptTime stj
  let etj ← getField j .end_time
  let et ← decodeOptTime etj
  pure { total_minutes := tm, dead_time_minutes := dm, projects := ps,
         warnings := ws, start_time := st, end_time := et }

/-- The entry the line "1-2 x" parses to. -/
def bigEntry : TimeEntry :=
  { start := { hour := 1, minute := 0 }, endTime := { hour := 2, minute := 0 },
    project := "x".toList, notes := [] }

/-- An explicit large input: 6508334 copies of the line "1-2 x".  Each
consecutive pair of its entries has chronological gap 720 - 120 + 60 = 660,
so the positive-gap sum 660 * 6508333 = 4295499780 exceeds 2^32 - 1. -/
def bigInput : Str :=
  (List.replicate (6508333 + 1) "1-2 x\n".toList).flatten

theorem to_minutes_le_719 (t : Time) (h : TimeValid t) : t.to_minutes ≤ 719 := by
  rcases h with ⟨hh, hm⟩
  unfold Time.to_minutes
  split <;> omega

theorem u32cast_int_eq (d : Int) (h0 : 0 ≤ d) (h1 : d < 2 ^ 32) :
    (u32cast d : Int) = d := by
  unfold u32cast
  rw [Int.emod_eq_of_lt h0 (by exact_mod_cast h1)]
  exact Int.toNat_of_nonneg h0

theorem u32cast_eq_toNat (d : Int) (h0 : 0 ≤ d) (h1 : d < 2 ^ 32) :
    u32cast d = d.toNat := by
  unfold u32cast
  rw [Int.emod_eq_of_lt h0 (by exact_mod_cast h1)]

/-- C3: for valid times, the chronological gap is the difference in
to_minutes space when the second time is later, zero when they are equal,
and wraps by 720 minutes when the second time appears earlier. -/
theorem chronological_duration_minutes_spec (prev next : Time)
    (hp : TimeValid prev) (hn : TimeValid next) :
    Time.chronological_duration_minutes prev next =
      if next.to_minutes > prev.to_minutes then
        (next.to_minutes : Int) - prev.to_minutes
      else if next.to_minutes = prev.to_minutes then 0
      else 720 - (prev.to_minutes : Int) + next.to_minutes := by
  simp only [Time.chronological_duration_minutes]
  split_ifs <;> omega

/-- Witness for C3 at the pair 11:30 and 1:00 (a wrapped gap of 90). -/
theorem chronological_duration_minutes_spec_witness :
    Time.chronological_duration_minutes ⟨11, 30⟩ ⟨1, 0⟩ =
      if Time.to_minutes ⟨1, 0⟩ > Time.to_minutes ⟨11, 30⟩ then
        (Time.to_minutes ⟨1, 0⟩ : Int) - Time.to_minutes ⟨11, 30⟩
      else if Time.to_minutes ⟨1, 0⟩ = Time.to_minutes ⟨11, 30⟩ then 0
      else 720 - (Time.to_minutes ⟨11, 30⟩ : Int) + Time.to_minutes ⟨1, 0⟩ :=
  chronological_duration_minutes_spec ⟨11, 30⟩ ⟨1, 0⟩ (by decide) (by decide)

/-- C4 counterexample: the claimed discrepancy does not exist; on every
equal-time input the two duration operators agree (both use the non-wrap
branch there). -/
theorem equal_time_operators_agree :
    ¬ ∃ t : Time, Time.duration_minutes t t ≠ Time.chronological_duration_minutes t t := by
  rintro ⟨t, h⟩
  apply h
  simp only [Time.duration_minutes, Time.chronological_duration_minutes]
  split_ifs <;> omega

/-- C4 amended: on equal-time inputs both duration operators return zero;
duration_minutes does not wrap an equal-time input to a full period. -/
theorem equal_time_both_zero (t : Time) :
    Time.duration_minutes t t = 0 ∧ Time.chronological_duration_minutes t t = 0 := by
  constructor <;>
    (simp only [Time.duration_minutes, Time.chronological_duration_minutes]
     split_ifs <;> omega)

/-- C10: for valid times both duration operators land in [0, 719], so the
`as u32` casts reproduce the value exactly (no wrap). -/
theorem durations_in_range (a b : Time) (ha : TimeValid a) (hb : TimeValid b) :
    (0 ≤ Time.duration_minutes a b ∧ Time.duration_minutes a b ≤ 719) ∧
    (0 ≤ Time.chronological_duration_minutes a b ∧
      Time.chronological_duration_minutes a b ≤ 719) ∧
    (u32cast (Time.duration_minutes a b) : Int) = Time.duration_minutes a b ∧
    (u32cast (Time.chronological_duration_minutes a b) : Int) =
      Time.chronological_duration_minutes a b := by
  have h1 := to_minutes_le_719 a ha
  have h2 := to_minutes_le_719 b hb
  have hd : 0 ≤ Time.duration_minutes a b ∧ Time.duration_minutes a b ≤ 719 := by
    simp only [Time.duration_minutes]
    split_ifs <;> omega
  have hc : 0 ≤ Time.chronological_duration_minutes a b ∧
      Time.chronological_duration_minutes a b ≤ 719 := by
    simp only [Time.chronological_duration_minutes]
    split_ifs <;> omega
  refine ⟨hd, hc, ?_, ?_⟩
  · exact u32cast_int_eq _ hd.1 (by omega)
  · exact u32cast_int_eq _ hc.1 (by omega)

/-- Witness for C10 at the pair 11:45 and 12:15. -/
theorem durations_in_range_witness :
    (0 ≤ Time.duration_minutes ⟨11, 45⟩ ⟨12, 15⟩ ∧
      Time.duration_minutes ⟨11, 45⟩ ⟨12, 15⟩ ≤ 719) ∧
    (0 ≤ Time.chronological_duration_minutes ⟨11, 45⟩ ⟨12, 15⟩ ∧
      Time.chronological_duration_minutes ⟨11, 45⟩ ⟨12, 15⟩ ≤ 719) ∧
    (u32cast (Time.duration_minutes ⟨11, 45⟩ ⟨12, 15⟩) : Int) =
      Time.duration_minutes ⟨11, 45⟩ ⟨12, 15⟩ ∧
    (u32cast (Time.chronological_duration_minutes ⟨11, 45⟩ ⟨12, 15⟩) : Int) =
      Time.chronological_duration_minutes ⟨11, 45⟩ ⟨12, 15⟩ :=
  durations_in_range ⟨11, 45⟩ ⟨12, 15⟩ (by decide) (by decide)

/-- C1: on the four-line sample input, total_minutes is 255 and the three
name-sorted project summaries are code1 with 60, code2 with 75 and code3
with 120 minutes. -/
theorem parse_sample_input_totals :
    (parse_time_tracking_data
      "11:45-12:15 code1\n12:15-1:30 code2\n1:30-2 code1\n2-4 code3".toList
      none none).total_minutes = 255 ∧
    (parse_time_tracking_data
      "11:45-12:15 code1\n12:15-1:30 code2\n1:30-2 code1\n2-4 code3".toList
      none none).projects.map (fun p => (p.name, p.total_minutes)) =
      [("code1".toList, 60), ("code2".toList, 75), ("code3".toList, 120)] := by
  decide

theorem strLt_asymm (a b : Str) (h : strLt a b = true) : strLt b a = false := by
  induction a generalizing b with
  | nil =>
    cases b with
    | nil => simp [strLt] at h
    | cons y ys => simp [strLt]
  | cons x xs ih =>
    cases b with
    | nil => simp [strLt] at h
    | cons y ys =>
      rcases lt_trichotomy x y with hxy | hxy | hxy
      · simp [strLt, hxy, asymm hxy]
      · subst hxy
        simp only [strLt, lt_irrefl, if_false] at h ⊢
        exact ih ys h
      · simp [strLt, hxy, asymm hxy] at h

theorem strLt_trans (a b c : Str) (h1 : strLt a b = true) (h2 : strLt b c = true) :
    strLt a c = true := by
  induction a generalizing b c with
  | nil =>
    cases c with
    | nil =>
      cases b with
      | nil => exact h1
      | cons y ys => simp [strLt] at h2
    | cons z zs => simp [strLt]
  | cons x xs ih =>
    cases b with
    | nil => simp [strLt] at h1
    | cons y ys =>
      cases c with
      | nil => simp [strLt] at h2
      | cons z zs =>
        rcases lt_trichotomy x y with hxy | hxy | hxy
        · rcases lt_trichotomy y z with hyz | hyz | hyz
          · simp [strLt, lt_trans hxy hyz, asymm (lt_trans hxy hyz)]
          · subst hyz; simp [strLt, hxy, asymm hxy]
          · simp [strLt, hyz, asymm hyz] at h2
        · subst hxy
          rcases lt_trichotomy x z with hxz | hxz | hxz
          · simp [strLt, hxz, asymm hxz]
          · subst hxz
            simp only [strLt, lt_irrefl, if_false] at h1 h2 ⊢
            exact ih ys zs h1 h2
          · simp [strLt, hxz, asymm hxz] at h2
        · simp [strLt, hxy, asymm hxy] at h1

theorem strLt_eq_of_not (a b : Str) (h1 : strLt a b = false) (h2 : strLt b a = false) :
    a = b := by
  induction a generalizing b with
  | nil =>
    cases b with
    | nil => rfl
    | cons y ys => simp [strLt] at h1
  | cons x xs ih =>
    cases b with
    | nil => simp [strLt] at h2
    | cons y ys =>
      rcases lt_trichotomy x y with hxy | hxy | hxy
      · simp [strLt, hxy] at h1
      · subst hxy
        simp only [strLt, lt_irrefl, if_false] at h1 h2
        rw [ih ys h1 h2]
      · simp [strLt, hxy] at h2

theorem strLe_total (a b : Str) : strLe a b = true ∨ strLe b a = true := by
  unfold strLe
  cases h : strLt b a with
  | false => left; simp
  | true => right; simp [strLt_asymm b a h]

theorem strLe_trans (a b c : Str) (h1 : strLe a b = true) (h2 : strLe b c = true) :
    strLe a c = true := by
  unfold strLe at h1 h2 ⊢
  simp only [Bool.not_eq_true'] at h1 h2 ⊢
  cases hca : strLt c a with
  | false => rfl
  | true =>
    exfalso
    cases hbc : strLt b c with
    | false =>
      cases hcb : strLt c b with
      | false =>
        rw [strLt_eq_of_not b c hbc hcb] at h1
        rw [h1] at hca
        exact Bool.false_ne_true hca
      | true => rw [h2] at hcb; exact Bool.false_ne_true hcb
    | true =>
      have := strLt_trans b c a hbc hca
      rw [h1] at this
      exact Bool.false_ne_true this

theorem strLt_of_le_ne (a b : Str) (h : strLe a b = true) (hne : a ≠ b) :
    strLt a b = true := by
  unfold strLe at h
  simp only [Bool.not_eq_true'] at h
  cases hab : strLt a b with
  | true => rfl
  | false => exact absurd (strLt_eq_of_not a b hab h) hne

theorem insertPS_perm (x : ProjectSummary) (l : List ProjectSummary) :
    List.Perm (insertPS x l) (x :: l) := by
  induction l with
  | nil => simp [insertPS]
  | cons y ys ih =>
    simp only [insertPS]
    split
    · exact List.Perm.refl _
    · exact (List.Perm.cons y ih).trans (List.Perm.swap x y ys)

theorem sortProjects_perm (l : List ProjectSummary) :
    List.Perm (sortProjects l) l := by
  induction l with
  | nil => simp [sortProjects]
  | cons x xs ih =>
    exact (insertPS_perm x (sortProjects xs)).trans (List.Perm.cons x ih)

theorem insertPS_pairwise (x : ProjectSummary) (l : List ProjectSummary)
    (h : List.Pairwise (fun a b => strLe a.name b.name = true) l) :
    List.Pairwise (fun a b => strLe a.name b.name = true) (insertPS x l) := by
  induction l with
  | nil => simp [insertPS]
  | cons y ys ih =>
    rcases List.pairwise_cons.mp h with ⟨hy, hys⟩
    simp only [insertPS]
    split_ifs with hxy
    · refine List.pairwise_cons.mpr ⟨?_, h⟩
      intro z hz
      rcases List.mem_cons.mp hz with rfl | hz
      · exact hxy
      · exact strLe_trans _ _ _ hxy (hy z hz)
    · have hyx : strLe y.name x.name = true := by
        rcases strLe_total x.name y.name with ht | ht
        · exact absurd ht hxy
        · exact ht
      refine List.pairwise_cons.mpr ⟨?_, ih hys⟩
      intro z hz
      rcases List.mem_cons.mp ((insertPS_perm x ys).mem_iff.mp hz) with rfl | hz
      · exact hyx
      · exact hy z hz

theorem sortProjects_pairwise (l : List ProjectSummary) :
    List.Pairwise (fun a b => strLe a.name b.name = true) (sortProjects l) := by
  induction l with
  | nil => simp [sortProjects]
  | cons x xs ih => exact insertPS_pairwise x (sortProjects xs) ih

theorem namesOf_addEntry (acc : List ProjectSummary) (e : TimeEntry) :
    namesOf (addEntry acc e) =
      if e.project ∈ namesOf acc then namesOf acc else namesOf acc ++ [e.project] := by
  induction acc with
  | nil => simp [addEntry, namesOf]
  | cons s rest ih =>
    by_cases hname : s.name = e.project
    · have hmem : e.project ∈ namesOf (s :: rest) := by
        simp only [namesOf, List.map_cons, List.mem_cons]
        exact Or.inl hname.symm
      rw [if_pos hmem]
      simp only [addEntry, if_pos hname]
      simp [namesOf]
    · have hcons : (e.project ∈ namesOf (s :: rest)) ↔ e.project ∈ namesOf rest := by
        simp only [namesOf, List.map_cons, List.mem_cons]
        constructor
        · rintro (h | h)
          · exact absurd h.symm hname
          · exact h
        · exact Or.inr
      simp only [addEntry, if_neg hname]
      by_cases hmem : e.project ∈ namesOf rest
      · rw [if_pos (hcons.mpr hmem)]
        have heq := ih
        rw [if_pos hmem] at heq
        simp only [namesOf] at heq
        simp [namesOf, heq]
      · rw [if_neg (fun h => hmem (hcons.mp h))]
        have heq := ih
        rw [if_neg hmem] at heq
        simp only [namesOf] at heq
        simp [namesOf, heq]

theorem mem_namesOf_addEntry (acc : List ProjectSummary) (e : TimeEntry) (n : Str) :
    n ∈ namesOf (addEntry acc e) ↔ n ∈ namesOf acc ∨ n = e.project := by
  rw [namesOf_addEntry]
  split_ifs with hmem
  · constructor
    · exact Or.inl
    · rintro (h | rfl)
      · exact h
      · exact hmem
  · simp

theorem nodup_namesOf_addEntry (acc : List ProjectSummary) (e : TimeEntry)
    (h : (namesOf acc).Nodup) : (namesOf (addEntry acc e)).Nodup := by
  rw [namesOf_addEntry]
  split_ifs with hmem
  · exact h
  · simp [List.nodup_append, h, hmem]

theorem mem_namesOf_aggregate (entries : List TimeEntry)
    (acc : List ProjectSummary) (n : Str) :
    n ∈ namesOf (aggregate entries acc) ↔
      n ∈ namesOf acc ∨ ∃ e ∈ entries, e.project = n ∧ n ≠ [] := by
  induction entries generalizing acc with
  | nil => simp [aggregate]
  | cons e rest ih =>
    simp only [aggregate]
    split_ifs with hempty
    · rw [ih]
      simp only [List.mem_cons]
      constructor
      · rintro (h | ⟨e', he', hp, hn⟩)
        · exact Or.inl h
        · exact Or.inr ⟨e', Or.inr he', hp, hn⟩
      · rintro (h | ⟨e', (rfl | he'), hp, hn⟩)
        · exact Or.inl h
        · exact absurd (hp.symm.trans hempty) hn
        · exact Or.inr ⟨e', he', hp, hn⟩
    · rw [ih]
      rw [mem_namesOf_addEntry]
      simp only [List.mem_cons]
      constructor
      · rintro ((h | rfl) | ⟨e', he', hp, hn⟩)
        · exact Or.inl h
        · exact Or.inr ⟨e, Or.inl rfl, rfl, hempty⟩
        · exact Or.inr ⟨e', Or.inr he', hp, hn⟩
      · rintro (h | ⟨e', (rfl | he'), hp, hn⟩)
        · exact Or.inl (Or.inl h)
        · exact Or.inl (Or.inr hp.symm)
        · exact Or.inr ⟨e', he', hp, hn⟩

theorem nodup_namesOf_aggregate (entries : List TimeEntry)
    (acc : List ProjectSummary) (h : (namesOf acc).Nodup) :
    (namesOf (aggregate entries acc)).Nodup := by
  induction entries generalizing acc with
  | nil => exact h
  | cons e rest ih =>
    simp only [aggregate]
    split_ifs
    · exact ih acc h
    · exact ih _ (nodup_namesOf_addEntry acc e h)

theorem mem_namesOf (l : List ProjectSummary) (n : Str) :
    n ∈ namesOf l ↔ ∃ x ∈ l, x.name = n := by
  simp [namesOf]

/-- C7: the returned projects list holds exactly one summary per distinct
non-empty project label of the parsed entries and is strictly ascending in
name under lexicographic comparison, hence independent of input order. -/
theorem projects_sorted_and_unique (input : Str) (pfx sfx : Option Str) :
    List.Pairwise (fun a b => strLt a.name b.name = true)
      (parse_time_tracking_data input pfx sfx).projects ∧
    ∀ n : Str, (∃ x ∈ (parse_time_tracking_data input pfx sfx).projects, x.name = n) ↔
      (n ≠ [] ∧ ∃ e ∈ parsedEntries input pfx sfx, e.project = n) := by
  have hproj : (parse_time_tracking_data input pfx sfx).projects =
      sortProjects (aggregate (parsedEntries input pfx sfx) []) := rfl
  have hperm := sortProjects_perm (aggregate (parsedEntries input pfx sfx) [])
  have hnd : (namesOf (sortProjects (aggregate (parsedEntries input pfx sfx) []))).Nodup := by
    have h0 : (namesOf (aggregate (parsedEntries input pfx sfx) [])).Nodup :=
      nodup_namesOf_aggregate _ _ (by simp [namesOf])
    exact ((hperm.map ProjectSummary.name).nodup_iff).mpr h0
  constructor
  · rw [hproj]
    have hle := sortProjects_pairwise (aggregate (parsedEntries input pfx sfx) [])
    have hne : List.Pairwise (fun a b : ProjectSummary => a.name ≠ b.name)
        (sortProjects (aggregate (parsedEntries input pfx sfx) [])) :=
      List.pairwise_map.mp hnd
    exact (hle.and hne).imp fun h => strLt_of_le_ne _ _ h.1 h.2
  · intro n
    rw [hproj]
    have e1 : (∃ x ∈ sortProjects (aggregate (parsedEntries input pfx sfx) []), x.name = n)
        ↔ ∃ x ∈ aggregate (parsedEntries input pfx sfx) [], x.name = n := by
      constructor
      · rintro ⟨x, hx, h⟩; exact ⟨x, hperm.mem_iff.mp hx, h⟩
      · rintro ⟨x, hx, h⟩; exact ⟨x, hperm.mem_iff.mpr hx, h⟩
    rw [e1, ← mem_namesOf, mem_namesOf_aggregate]
    simp only [namesOf, List.map_nil, List.not_mem_nil, false_or]
    constructor
    · rintro ⟨e, he, hp, hn⟩; exact ⟨hn, e, he, hp⟩
    · rintro ⟨hn, e, he, hp⟩; exact ⟨e, he, hp, hn⟩

theorem hour_from_str_le (s : Str) (h : Nat) (hh : Hour.from_str s = .ok h) : h ≤ 12 := by
  unfold Hour.from_str at hh
  cases hp : parseU8 s with
  | none => simp [hp] at hh
  | some v =>
    simp only [hp] at hh
    split_ifs at hh with hv
    cases hh
    exact hv

theorem minute_from_str_le (s : Str) (m : Nat) (hm : Minute.from_str s = .ok m) : m ≤ 59 := by
  unfold Minute.from_str at hm
  cases hp : parseU8 s with
  | none => simp [hp] at hm
  | some v =>
    simp only [hp] at hm
    split_ifs at hm with hv
    cases hm
    exact hv

theorem from_strings_valid (h m : Str) (t : Time)
    (ht : Time.from_strings h m = .ok t) : TimeValid t := by
  unfold Time.from_strings at ht
  cases hh : Hour.from_str h with
  | error e => simp [hh] at ht
  | ok hv =>
    cases hm : Minute.from_str m with
    | error e => simp [hh, hm] at ht
    | ok mv =>
      simp only [hh, hm] at ht
      cases ht
      exact ⟨hour_from_str_le h hv hh, minute_from_str_le m mv hm⟩

theorem parse_time_valid (s : Str) (t : Time) (ht : parse_time s = .ok t) : TimeValid t := by
  unfold parse_time at ht
  cases hsp : splitOnChar ':' s with
  | nil => rw [hsp] at ht; exact absurd ht (by simp)
  | cons p0 ps =>
    cases ps with
    | nil =>
      rw [hsp] at ht
      exact from_strings_valid _ _ _ ht
    | cons p1 pr =>
      cases pr with
      | nil =>
        rw [hsp] at ht
        exact from_strings_valid _ _ _ ht
      | cons p2 pr2 =>
        rw [hsp] at ht
        exact absurd ht (by simp)

theorem parse_time_range_valid (r : Str) (s e : Time)
    (hr : parse_time_range r = .ok (s, e)) : TimeValid s ∧ TimeValid e := by
  unfold parse_time_range at hr
  cases hsp : splitOnChar '-' r with
  | nil => rw [hsp] at hr; exact absurd hr (by simp)
  | cons p0 ps =>
    cases ps with
    | nil => rw [hsp] at hr; exact absurd hr (by simp)
    | cons p1 pr =>
      cases pr with
      | cons p2 pr2 => rw [hsp] at hr; exact absurd hr (by simp)
      | nil =>
        rw [hsp] at hr
        cases h0 : parse_time (trimStr p0) with
        | error msg => simp [h0] at hr
        | ok t0 =>
          cases h1 : parse_time (trimStr p1) with
          | error msg => simp [h0, h1] at hr
          | ok t1 =>
            simp only [h0, h1] at hr
            cases hr
            exact ⟨parse_time_valid _ _ h0, parse_time_valid _ _ h1⟩

theorem handleLine_valid (st : ParseState) (line : Str) (h : StateValid st) :
    StateValid (handleLine st line) := by
  rcases h with ⟨hE, hC⟩
  have hPush : StateValid (pushCurrent st) := by
    constructor
    · intro x hx
      rcases List.mem_append.mp hx with hx | hx
      · exact hE x hx
      · exact hC x hx
    · intro x hx
      simp [pushCurrent, Option.toList] at hx
  unfold handleLine
  split_ifs with hnote
  · cases hcur : st.current with
    | none => simp only [hcur]; exact ⟨hE, hC⟩
    | some e =>
      simp only [hcur]
      refine ⟨hE, ?_⟩
      intro x hx
      simp only [Option.toList, List.mem_singleton] at hx
      subst hx
      exact hC e (by simp [hcur, Option.toList])
  · rcases hPush with ⟨hE', hC'⟩
    cases hsp : splitn2Space line with
    | nil => exact ⟨hE', hC'⟩
    | cons p0 ps =>
      cases ps with
      | nil =>
        cases hpr : parse_time_range p0 with
        | ok pair =>
          obtain ⟨s, e⟩ := pair
          simp only [hpr]
          refine ⟨hE', ?_⟩
          intro x hx
          simp only [Option.toList, List.mem_singleton] at hx
          subst hx
          exact parse_time_range_valid p0 s e hpr
        | error msg =>
          simp only [hpr]
          exact ⟨hE', by simp [pushCurrent]⟩
      | cons p1 pr =>
        cases hpr : parse_time_range p0 with
        | ok pair =>
          obtain ⟨s, e⟩ := pair
          simp only [hpr]
          refine ⟨hE', ?_⟩
          intro x hx
          simp only [Option.toList, List.mem_singleton] at hx
          subst hx
          exact parse_time_range_valid p0 s e hpr
        | error msg =>
          simp only [hpr]
          exact ⟨hE', by simp [pushCurrent]⟩

theorem processLine_valid (pfx sfx : Option Str) (st : ParseState) (raw : Str)
    (h : StateValid st) :
    match processLine pfx sfx st raw with
    | .next s => StateValid s
    | .halt s => StateValid s := by
  unfold processLine
  by_cases h1 : trimStr raw = []
  · simp only [h1, if_pos]
    exact h
  · rw [if_neg h1]
    by_cases h2 : st.started
    · simp only [h2, if_pos]
      unfold afterStart
      split_ifs
      · exact handleLine_valid st (trimStr raw) h
      · exact h
    · simp only [h2]
      rw [if_neg (by simp [h2])]
      split_ifs with h3 h4
      · exact ⟨h.1, h.2⟩
      · unfold afterStart
        split_ifs
        · exact handleLine_valid _ (trimStr raw) ⟨h.1, h.2⟩
        · exact ⟨h.1, h.2⟩
      · exact h

theorem processLines_valid (pfx sfx : Option Str) (ls : List Str) (st : ParseState)
    (h : StateValid st) : StateValid (processLines pfx sfx ls st) := by
  induction ls generalizing st with
  | nil => exact h
  | cons l rest ih =>
    have key := processLine_valid pfx sfx st l h
    simp only [processLines]
    cases hpr : processLine pfx sfx st l with
    | next s =>
      rw [hpr] at key
      exact ih s key
    | halt s =>
      rw [hpr] at key
      exact key

theorem parsedEntries_valid (input : Str) (pfx sfx : Option Str) :
    ∀ e ∈ parsedEntries input pfx sfx, EntryValid e := by
  have h := processLines_valid pfx sfx (rustLines input) initState
    (by constructor <;> simp [initState, Option.toList])
  intro e he
  unfold parsedEntries at he
  rcases List.mem_append.mp he with he | he
  · exact h.1 e he
  · exact h.2 e he

theorem specDeadFrom_nonneg (t : Time) (l : List TimeEntry) : 0 ≤ specDeadFrom t l := by
  induction l generalizing t with
  | nil => simp [specDeadFrom]
  | cons e rest ih =>
    simp only [specDeadFrom]
    have h := ih e.endTime
    split_ifs with hg
    · omega
    · omega

theorem specDeadTime_cons (e : TimeEntry) (rest : List TimeEntry) :
    specDeadTime (e :: rest) = specDeadFrom e.endTime rest := by
  induction rest generalizing e with
  | nil => simp [specDeadTime, specDeadFrom]
  | cons e2 r ih =>
    simp only [specDeadTime, specDeadFrom] at ih ⊢
    rw [ih e2]

theorem deadTimeAux_eq (entries : List TimeEntry) :
    ∀ (prev : Time) (acc : Nat), acc < 2 ^ 32 → (∀ e ∈ entries, EntryValid e) →
      TimeValid prev →
      deadTimeAux (some prev) acc entries =
        (acc + (specDeadFrom prev entries).toNat) % 2 ^ 32 := by
  induction entries with
  | nil =>
    intro prev acc hacc _ _
    simp only [deadTimeAux, specDeadFrom, Int.toNat_zero]
    omega
  | cons e rest ih =>
    intro prev acc hacc hv hp
    have hve : EntryValid e := hv e (by simp)
    have hrest : ∀ x ∈ rest, EntryValid x := fun x hx => hv x (by simp [hx])
    have hgb := (durations_in_range prev e.start hp hve.1).2.1
    simp only [deadTimeAux, specDeadFrom]
    split_ifs with hg
    · rw [ih e.endTime _ (Nat.mod_lt _ (by norm_num)) hrest hve.2]
      have hcast : u32cast (Time.chronological_duration_minutes prev e.start) =
          (Time.chronological_duration_minutes prev e.start).toNat :=
        u32cast_eq_toNat _ (le_of_lt hg) (by omega)
      rw [hcast, Int.toNat_add (le_of_lt hg) (specDeadFrom_nonneg e.endTime rest),
        Nat.mod_add_mod]
      omega
    · rw [ih e.endTime _ hacc hrest hve.2]
      simp

theorem splitOnChar_newline_append (l : Str) (hl : '\n' ∉ l) (rest : Str) :
    splitOnChar '\n' (l ++ '\n' :: rest) = l :: splitOnChar '\n' rest := by
  induction l with
  | nil => simp [splitOnChar]
  | cons c cs ih =>
    have hc : c ≠ '\n' := fun h => hl (h ▸ List.mem_cons_self c cs)
    have hcs : '\n' ∉ cs := fun h => hl (List.mem_cons_of_mem c h)
    simp [splitOnChar, hc, ih hcs]

theorem splitOnChar_bigJoin (n : Nat) :
    splitOnChar '\n' ((List.replicate n "1-2 x\n".toList).flatten) =
      List.replicate n "1-2 x".toList ++ [[]] := by
  induction n with
  | zero => rfl
  | succ n ih =>
    rw [List.replicate_succ, List.flatten_cons]
    have h1 : "1-2 x\n".toList ++ (List.replicate n "1-2 x\n".toList).flatten =
        "1-2 x".toList ++ '\n' :: (List.replicate n "1-2 x\n".toList).flatten := rfl
    rw [h1, splitOnChar_newline_append "1-2 x".toList (by decide), ih,
      List.replicate_succ]
    rfl

theorem rustLines_bigJoin (n : Nat) :
    rustLines ((List.replicate n "1-2 x\n".toList).flatten) =
      List.replicate n "1-2 x".toList := by
  unfold rustLines
  rw [splitOnChar_bigJoin n]
  simp only [List.getLast?_concat, if_pos, List.dropLast_concat, List.map_replicate]
  rfl

theorem processLine_bigLine_start :
    processLine none none initState "1-2 x".toList =
      .next { warnings := [], entries := [], current := some bigEntry, started := true } :=
  rfl

theorem processLine_bigLine_step (w : List Str) (E : List TimeEntry) :
    processLine none none
        { warnings := w, entries := E, current := some bigEntry, started := true }
        "1-2 x".toList =
      .next { warnings := w, entries := E ++ [bigEntry], current := some bigEntry,
              started := true } :=
  rfl

theorem processLines_bigLines (k : Nat) :
    ∀ (w : List Str) (E : List TimeEntry),
      processLines none none (List.replicate k "1-2 x".toList)
          { warnings := w, entries := E, current := some bigEntry, started := true } =
        { warnings := w, entries := E ++ List.replicate k bigEntry,
          current := some bigEntry, started := true } := by
  induction k with
  | zero => intro w E; simp [processLines]
  | succ k ih =>
    intro w E
    rw [List.replicate_succ]
    simp only [processLines]
    rw [processLine_bigLine_step w E]
    show processLines none none (List.replicate k "1-2 x".toList)
        { warnings := w, entries := E ++ [bigEntry], current := some bigEntry,
          started := true } = _
    rw [ih w (E ++ [bigEntry])]
    simp [List.replicate_succ]

theorem processLines_cons (pfx sfx : Option Str) (l : Str) (rest : List Str)
    (st : ParseState) :
    processLines pfx sfx (l :: rest) st =
      match processLine pfx sfx st l with
      | .next st' => processLines pfx sfx rest st'
      | .halt st' => st' := by
  simp only [processLines]

theorem deadTimeAux_cons_none (e : TimeEntry) (rest : List TimeEntry) (acc : Nat) :
    deadTimeAux none acc (e :: rest) = deadTimeAux (some e.endTime) acc rest := by
  simp only [deadTimeAux]

theorem parse_dead_eq (input : Str) (pfx sfx : Option Str) :
    (parse_time_tracking_data input pfx sfx).dead_time_minutes =
      deadTimeAux none 0 (parsedEntries input pfx sfx) := rfl

theorem processLines_bigInput :
    processLines none none (rustLines bigInput) initState =
      { warnings := [], entries := List.replicate 6508333 bigEntry,
        current := some bigEntry, started := true } := by
  rw [show rustLines bigInput = List.replicate (6508333 + 1) "1-2 x".toList from
    rustLines_bigJoin (6508333 + 1)]
  rw [List.replicate_succ, processLines_cons, processLine_bigLine_start]
  show processLines none none (List.replicate 6508333 "1-2 x".toList)
      { warnings := [], entries := [], current := some bigEntry, started := true } = _
  rw [processLines_bigLines 6508333 [] []]
  rw [List.nil_append]

theorem parsedEntries_bigInput :
    parsedEntries bigInput none none = List.replicate (6508333 + 1) bigEntry := by
  unfold parsedEntries
  rw [processLines_bigInput]
  show List.replicate 6508333 bigEntry ++ [bigEntry] = _
  rw [← List.replicate_succ']

theorem deadTimeAux_bigEntry (k : Nat) :
    ∀ acc : Nat, acc < 2 ^ 32 →
      deadTimeAux (some bigEntry.endTime) acc (List.replicate k bigEntry) =
        (acc + 660 * k) % 2 ^ 32 := by
  induction k with
  | zero =>
    intro acc hacc
    simp only [deadTimeAux]
    omega
  | succ k ih =>
    intro acc hacc
    rw [List.replicate_succ]
    simp only [deadTimeAux]
    rw [show Time.chronological_duration_minutes bigEntry.endTime bigEntry.start =
      (660 : Int) from by decide]
    rw [if_pos (by norm_num : (660 : Int) > 0)]
    rw [show u32cast 660 = 660 from by decide]
    rw [ih ((acc + 660) % 2 ^ 32) (Nat.mod_lt _ (by norm_num)), Nat.mod_add_mod]
    congr 1
    ring

theorem specDeadFrom_bigEntry (k : Nat) :
    specDeadFrom bigEntry.endTime (List.replicate k bigEntry) = 660 * k := by
  induction k with
  | zero => simp [specDeadFrom]
  | succ k ih =>
    rw [List.replicate_succ]
    simp only [specDeadFrom]
    rw [show Time.chronological_duration_minutes bigEntry.endTime bigEntry.start =
      (660 : Int) from by decide]
    rw [if_pos (by norm_num : (660 : Int) > 0), ih]
    push_cast
    ring

/-- C2 counterexample: on the explicit input of 6508334 lines "1-2 x" the
positive-gap sum is 660 * 6508333 = 4295499780, which exceeds 2^32 - 1, and
the u32 accumulation of parse_time_tracking_data wraps to 532484, so the
returned dead_time_minutes differs from the unbounded sum. -/
theorem dead_time_wrap_counterexample :
    (parse_time_tracking_data bigInput none none).dead_time_minutes = 532484 ∧
    (specDeadTime (parsedEntries bigInput none none)).toNat = 4295499780 ∧
    (parse_time_tracking_data bigInput none none).dead_time_minutes ≠
      (specDeadTime (parsedEntries bigInput none none)).toNat := by
  have hdead : (parse_time_tracking_data bigInput none none).dead_time_minutes = 532484 := by
    rw [parse_dead_eq, parsedEntries_bigInput, List.replicate_succ,
      deadTimeAux_cons_none, deadTimeAux_bigEntry 6508333 0 (by norm_num)]
    decide
  have hspec : (specDeadTime (parsedEntries bigInput none none)).toNat = 4295499780 := by
    rw [parsedEntries_bigInput, List.replicate_succ,
      specDeadTime_cons, specDeadFrom_bigEntry 6508333]
    decide
  refine ⟨hdead, hspec, ?_⟩
  rw [hdead, hspec]
  decide

/-- C2 amended: the returned dead_time_minutes is the sum over consecutive
parsed entries, in input order, of the strictly positive chronological gaps
between one entry's end and the next entry's start - no threshold,
independent of project labels - reduced modulo 2^32 by the wrapping u32
accumulator (so it is the sum itself whenever the sum is below 2^32). -/
theorem dead_time_is_wrapped_sum_of_positive_gaps (input : Str) (pfx sfx : Option Str) :
    (parse_time_tracking_data input pfx sfx).dead_time_minutes =
      (specDeadTime (parsedEntries input pfx sfx)).toNat % 2 ^ 32 := by
  have hv := parsedEntries_valid input pfx sfx
  have hdd : (parse_time_tracking_data input pfx sfx).dead_time_minutes =
      deadTimeAux none 0 (parsedEntries input pfx sfx) := rfl
  rw [hdd]
  cases hE : parsedEntries input pfx sfx with
  | nil => simp [deadTimeAux, specDeadTime]
  | cons e rest =>
    rw [hE] at hv
    have hve : EntryValid e := hv e (by simp)
    have hrest : ∀ x ∈ rest, EntryValid x := fun x hx => hv x (by simp [hx])
    rw [deadTimeAux_cons_none,
      deadTimeAux_eq rest e.endTime 0 (by norm_num) hrest hve.2, specDeadTime_cons]
    omega

/-- C5: an entry line whose time range parses but which has no
space-separated trailing label emits exactly the one warning "Line missing
project name: " followed by the line and opens an entry with an empty
project label (so its span keeps counting toward totals and gaps); no
returned summary ever carries the empty name; and the two-line sample
yields exactly one warning and exactly one summary, with the unlabeled
hour still in total_minutes and its gap in dead_time_minutes. -/
theorem missing_project_name_behavior :
    (∀ (st : ParseState) (line : Str) (s e : Time),
      st.started = true → trimStr line = line → startsWithDigit line = true →
      splitn2Space line = [line] → parse_time_range line = .ok (s, e) →
      processLine none none st line = .next
        { warnings := st.warnings ++ ["Line missing project name: ".toList ++ line],
          entries := st.entries ++ st.current.toList,
          current := some { start := s, endTime := e, project := [], notes := [] },
          started := true }) ∧
    (∀ (input : Str) (pfx sfx : Option Str),
      ∀ x ∈ (parse_time_tracking_data input pfx sfx).projects, x.name ≠ []) ∧
    parse_time_tracking_data "7-8\n9-10 project2".toList none none =
      { total_minutes := 120, dead_time_minutes := 60,
        projects := [{ name := "project2".toList, total_minutes := 60, notes := [] }],
        warnings := ["Line missing project name: 7-8".toList],
        start_time := some { hour := 7, minute := 0 },
        end_time := some { hour := 10, minute := 0 } } := by
  refine ⟨?_, ?_, by decide⟩
  · intro st line s e hstart htrim hd hsplit hok
    have hne : line ≠ [] := by
      cases line with
      | nil => simp [startsWithDigit] at hd
      | cons c cs => simp
    have hcont : should_continue_parsing line none = true := by
      cases line with
      | nil => simp at hne
      | cons c cs =>
        simp only [startsWithDigit] at hd
        simp [should_continue_parsing, hd]
    unfold processLine
    rw [htrim, if_neg hne]
    simp only [hstart, if_true]
    unfold afterStart
    rw [if_pos hcont]
    unfold handleLine
    rw [if_neg (by simp [hd])]
    rw [hsplit]
    simp only [hok, pushCurrent, hstart]
  · intro input pfx sfx x hx hxe
    have h1 : x.name ∈ namesOf (sortProjects (aggregate (parsedEntries input pfx sfx) [])) :=
      (mem_namesOf _ _).mpr ⟨x, hx, rfl⟩
    have h2 := ((sortProjects_perm _).map ProjectSummary.name).mem_iff.mp h1
    rcases (mem_namesOf_aggregate _ _ _).mp h2 with h3 | ⟨e, _, _, hn⟩
    · simp [namesOf] at h3
    · exact hn hxe

/-- Witness for the universally quantified part of the C5 theorem, at the
line "7-8" from a freshly started state. -/
theorem missing_project_name_behavior_witness :
    processLine none none { warnings := [], entries := [], current := none, started := true }
      "7-8".toList = .next
      { warnings := ["Line missing project name: 7-8".toList],
        entries := [],
        current := some { start := { hour := 7, minute := 0 },
                          endTime := { hour := 8, minute := 0 },
                          project := [], notes := [] },
        started := true } := by
  have h := missing_project_name_behavior.1
    { warnings := [], entries := [], current := none, started := true }
    "7-8".toList { hour := 7, minute := 0 } { hour := 8, minute := 0 }
    rfl (by decide) (by decide) (by decide) (by rfl)
  simpa using h

/-- C6 counterexample: the line "25-26" starts with a digit and its
time-range token fails to parse, yet the parse emits only the
missing-project-name warning; no warning of the "Error parsing time
range" form is appended for it. -/
theorem unlabeled_bad_range_has_no_error_warning :
    startsWithDigit "25-26".toList = true ∧
    parse_time_range "25-26".toList =
      .error "Hour must be between 0 and 12, got 25".toList ∧
    (parse_time_tracking_data "25-26".toList none none).warnings =
      ["Line missing project name: 25-26".toList] ∧
    List.isPrefixOf "Error parsing time range".toList
      ("Line missing project name: 25-26".toList) = false :=
  ⟨by decide, by rfl, by decide, by decide⟩

/-- C6 amended: for an entry line with a space-separated trailing label
whose time-range token fails to parse, exactly the warning "Error parsing
time range '…': …" is appended, no entry is opened for the line, and
parsing continues; on a sample input the failing line contributes nothing
to the totals while the following line is still parsed. -/
theorem bad_time_range_warning_and_no_entry :
    (∀ (st : ParseState) (line p0 p1 msg : Str),
      st.started = true → trimStr line = line → startsWithDigit line = true →
      splitn2Space line = [p0, p1] → parse_time_range p0 = .error msg →
      processLine none none st line = .next
        { warnings := st.warnings ++
            ["Error parsing time range '".toList ++ p0 ++ "': ".toList ++ msg],
          entries := st.entries ++ st.current.toList,
          current := none,
          started := true }) ∧
    (parse_time_tracking_data "25-26 code\n7-8 p".toList none none).total_minutes = 60 ∧
    (parse_time_tracking_data "25-26 code\n7-8 p".toList none none).warnings =
      ["Error parsing time range '25-26': Hour must be between 0 and 12, got 25".toList] ∧
    (parse_time_tracking_data "25-26 code\n7-8 p".toList none none).projects.map
      ProjectSummary.name = ["p".toList] := by
  refine ⟨?_, by decide, by decide, by decide⟩
  intro st line p0 p1 msg hstart htrim hd hsplit herr
  have hne : line ≠ [] := by
    cases line with
    | nil => simp [startsWithDigit] at hd
    | cons c cs => simp
  have hcont : should_continue_parsing line none = true := by
    cases line with
    | nil => simp at hne
    | cons c cs =>
      simp only [startsWithDigit] at hd
      simp [should_continue_parsing, hd]
  unfold processLine
  rw [htrim, if_neg hne]
  simp only [hstart, if_true]
  unfold afterStart
  rw [if_pos hcont]
  unfold handleLine
  rw [if_neg (by simp [hd])]
  rw [hsplit]
  simp only [herr, pushCurrent, hstart]

/-- Witness for the universally quantified part of the amended C6 theorem,
at the line "25-26 x" from a freshly started state. -/
theorem bad_time_range_warning_witness :
    processLine none none { warnings := [], entries := [], current := none, started := true }
      "25-26 x".toList = .next
      { warnings :=
          ["Error parsing time range '25-26': Hour must be between 0 and 12, got 25".toList],
        entries := [],
        current := none,
        started := true } := by
  have h := bad_time_range_warning_and_no_entry.1
    { warnings := [], entries := [], current := none, started := true }
    "25-26 x".toList "25-26".toList "x".toList
    "Hour must be between 0 and 12, got 25".toList
    rfl (by decide) (by decide) (by decide) (by rfl)
  simpa using h

/-- C8: with no suffix marker, once parsing has started a trimmed
non-blank line continues parsing exactly when its first character is a
digit, a dash, an asterisk, a space or a letter; the loop stops at the
first line that does not, ignoring everything after it; and on a
continuing line it proceeds with that line's effect. -/
theorem continuation_heuristic :
    (∀ line : Str, line ≠ [] →
      (should_continue_parsing line none = true ↔
        ∃ c cs, line = c :: cs ∧
          (isDigitChar c = true ∨ c = '-' ∨ c = '*' ∨ c = ' ' ∨
            isLowerChar c = true ∨ isUpperChar c = true))) ∧
    (∀ (st : ParseState) (raw : Str) (rest : List Str),
      st.started = true → trimStr raw ≠ [] →
      should_continue_parsing (trimStr raw) none = false →
      processLines none none (raw :: rest) st = st) ∧
    (∀ (st : ParseState) (raw : Str) (rest : List Str),
      st.started = true → trimStr raw ≠ [] →
      should_continue_parsing (trimStr raw) none = true →
      processLines none none (raw :: rest) st =
        processLines none none rest (handleLine st (trimStr raw))) := by
  refine ⟨?_, ?_, ?_⟩
  · intro line hne
    cases line with
    | nil => exact absurd rfl hne
    | cons c cs =>
      simp only [should_continue_parsing, Bool.or_eq_true, decide_eq_true_eq]
      constructor
      · intro h
        exact ⟨c, cs, rfl, by tauto⟩
      · rintro ⟨c', cs', heq, h⟩
        injection heq with h1 h2
        subst h1
        tauto
  · intro st raw rest hstart htrim hcont
    simp only [processLines]
    unfold processLine
    rw [if_neg htrim]
    simp only [hstart, if_true]
    unfold afterStart
    rw [if_neg (by simp [hcont])]
  · intro st raw rest hstart htrim hcont
    simp only [processLines]
    unfold processLine
    rw [if_neg htrim]
    simp only [hstart, if_true]
    unfold afterStart
    rw [if_pos hcont]

/-- Witness for C8 at a started state, a stopping line "!" and a
continuing line "x". -/
theorem continuation_heuristic_witness :
    processLines none none ["!".toList]
      { warnings := [], entries := [], current := none, started := true } =
      { warnings := [], entries := [], current := none, started := true } ∧
    should_continue_parsing "x".toList none = true :=
  ⟨continuation_heuristic.2.1
      { warnings := [], entries := [], current := none, started := true }
      "!".toList [] rfl (by decide) (by decide),
   (continuation_heuristic.1 "x".toList (by decide)).mpr
     ⟨'x', [], rfl, by decide⟩⟩

theorem optMapList_asStr (l : List Str) : optMapList asStr (l.map Json.str) = some l := by
  induction l with
  | nil => rfl
  | cons x xs ih => simp [optMapList, asStr, ih]

theorem decodeTime_encode (t : Time) : decodeTime (encodeTime t) = some t := rfl

theorem decodeProject_encode (p : ProjectSummary) :
    decodeProject (encodeProject p) = some p := by
  simp [decodeProject, encodeProject, getField, findField, decodeStrs,
    optMapList_asStr, asStr, asNum]

theorem optMapList_decodeProject (ps : List ProjectSummary) :
    optMapList decodeProject (ps.map encodeProject) = some ps := by
  induction ps with
  | nil => rfl
  | cons p rest ih => simp [optMapList, decodeProject_encode, ih]

theorem decodeOptTime_encode (o : Option Time) :
    decodeOptTime (encodeOptTime o) = some o := by
  cases o with
  | none => rfl
  | some t => rfl

/-- C9: decoding the interchange encoding of a result record restores the
record exactly, field by field, including the order of the warnings and
projects lists. -/
theorem interchange_round_trip (d : TimeTrackingData) :
    fromInterchange (toInterchange d) = some d := by
  simp [fromInterchange, toInterchange, getField, findField, decodeProjects,
    decodeStrs, optMapList_decodeProject, optMapList_asStr, decodeOptTime_encode, asNum]
